import Mathlib

/-!
# Dictionary service: lookup, count and prefix suggestion

A shallow embedding of `internal/dictionary/dictionary.go` (the `Service` with its
`NewService`, `Lookup`, `Count`, `Exists`, `Suggest`) and of `convertToMap` from
`internal/dictionary/converter.go`, followed by theorems about them.

Modelling decisions

* A Go `string` is its sequence of bytes: `Str = List Nat`.  Comparison of Go strings
  (`<`, `>=`, and the order used by `sort.Strings`) is byte-wise lexicographic: `strLT`.
* A Go `[]string` is the list of its elements; the nil slice and the empty slice are
  both `[]`.
* A Go `map[string][]string` is an association list with pairwise distinct keys
  (`AList`); the order of its entries plays the part of Go's unspecified iteration order.
* `strings.ToLower` belongs to the Go library, not to the repository.  Every operation
  that calls it takes the lower-casing function as its first argument `lower`, and the
  general theorems hold for every such function.  `ToLower` below is the library
  function on ASCII-only strings and is what the concrete evaluations use.
* `sort.Search` is a loop; its model `searchLoop` carries fuel and answers `none` when
  the fuel runs out, so `Suggest` answers in `Option`.  `Search_isSome` shows that the
  fuel handed over by `Search` always suffices.
-/

namespace DictService

/-! ## Strings -/

/-- A Go string: its bytes. -/
abbrev Str := List Nat

/-- The bytes of an ASCII literal. -/
def ascii (s : String) : Str := s.data.map Char.toNat

/-- Go's `a < b` on strings: byte-wise lexicographic order, a proper prefix is smaller. -/
def strLT : Str → Str → Bool
  | _, [] => false
  | [], _ :: _ => true
  | a :: as, b :: bs => decide (a < b) || (decide (a = b) && strLT as bs)

/-- Go's `a >= b` on strings. -/
def strGE (a b : Str) : Bool := !strLT a b

/-- Go's `a <= b` on strings, as a proposition. -/
def strLE (a b : Str) : Prop := strLT b a = false

instance : DecidableRel strLE := fun a b => inferInstanceAs (Decidable (strLT b a = false))

/-- Go's `strings.HasPrefix(s, pfx)`. -/
def HasPrefix (s pfx : Str) : Bool := pfx.isPrefixOf s

/-- Lower-casing of one ASCII byte: `A`..`Z` are shifted by `a - A`. -/
def lowerByte (c : Nat) : Nat := if 65 ≤ c ∧ c ≤ 90 then c + 32 else c

/-- Go's `strings.ToLower` on an ASCII-only string (the library's byte-wise fast path). -/
def ToLower (s : Str) : Str := s.map lowerByte

/-! ## Library routines of package sort -/

/-- Go's `sort.Strings`: the ascending rearrangement of the slice.  Any sorting algorithm
returns the same list (`sortStrings_unique`), insertion sort stands for the library's. -/
def sortStrings (ws : List Str) : List Str := ws.insertionSort strLE

/-- The loop of Go's `sort.Search`:
`for i < j { h := int(uint(i+j) >> 1); if !f(h) { i = h + 1 } else { j = h } }; return i`. -/
def searchLoop (f : Nat → Bool) : Nat → Nat → Nat → Option Nat
  | 0, i, j => if i < j then none else some i
  | fuel + 1, i, j =>
    if i < j then
      let h := (i + j) / 2
      if !f h then searchLoop f fuel (h + 1) j else searchLoop f fuel i h
    else some i

/-- Go's `sort.Search(n, f)`. -/
def Search (n : Nat) (f : Nat → Bool) : Option Nat := searchLoop f n 0 n

/-! ## The service -/

/-- Go's `type Dictionary map[string][]string`. -/
abbrev Dictionary := AList (fun _ : Str => List Str)

/-- The keys of the map in iteration order: what `for word := range dict` yields. -/
def rangeKeys (d : Dictionary) : List Str := d.keys

/-- Go's `type Service struct { dict Dictionary; sortedWords []string }`. -/
structure Service where
  dict : Dictionary
  sortedWords : List Str

/-- Go's `NewService`: collect the keys, sort them, keep both. -/
def NewService (dict : Dictionary) : Service :=
  let words := rangeKeys dict
  let words := sortStrings words
  { dict := dict, sortedWords := words }

/-- Go's `Service.Lookup`: `meanings, exists := s.dict[word]`. -/
def Lookup (s : Service) (word : Str) : List Str × Bool :=
  match s.dict.lookup word with
  | some meanings => (meanings, true)
  | none => ([], false)

/-- Go's `Service.Count`: `len(s.dict)`. -/
def Count (s : Service) : Int := (s.dict.entries.length : Int)

/-- Go's `Service.Exists`. -/
def Exists (s : Service) (word : Str) : Bool :=
  match s.dict.lookup word with
  | some _ => true
  | none => false

/-- The first two statements of `Suggest`: the default and the cap of `limit`. -/
def clampLimit (limit : Int) : Int :=
  let limit := if limit ≤ 0 then 20 else limit
  if limit > 100 then 100 else limit

/-- The `for` loop of `Suggest` over the words from `idx` on; `suggestions` is the slice
built so far.  The loop ends at the end of the words, when `limit` is reached, or at the
first word whose lower-cased form lacks the prefix. -/
def suggestLoop (lower : Str → Str) (pfx : Str) (limit : Int) :
    List Str → List Str → List Str
  | [], suggestions => suggestions
  | word :: rest, suggestions =>
    if (suggestions.length : Int) < limit then
      if HasPrefix (lower word) pfx then
        suggestLoop lower pfx limit rest (suggestions ++ [word])
      else suggestions
    else suggestions

/-- Go's `Service.Suggest`.  The search indexes `sortedWords` below its length only
(`Search_getD_irrelevant`), so the out-of-range value of `getD` is never read. -/
def Suggest (lower : Str → Str) (s : Service) (pfx : Str) (limit : Int) :
    Option (List Str) :=
  let limit := clampLimit limit
  let pfx := lower pfx
  if pfx = [] then some []
  else
    match Search s.sortedWords.length
        (fun i => strGE (lower (s.sortedWords.getD i [])) pfx) with
    | none => none
    | some idx => some (suggestLoop lower pfx limit (s.sortedWords.drop idx) [])

/-! ## The converter -/

/-- Go's `type Word struct { EnglishWord string; Meanings []string }`. -/
structure Word where
  EnglishWord : Str
  Meanings : List Str

/-- Go's `type JSONDictionary struct { TotalUniqueWords int; Words []Word }`. -/
structure JSONDictionary where
  TotalUniqueWords : Int
  Words : List Word

/-- Go's `make(Dictionary, hint)`: the empty map, whatever the capacity hint. -/
def makeDict (_hint : Int) : Dictionary := ∅

/-- Go's `Converter.convertToMap`: assign every entry in turn. -/
def convertToMap (jsonDict : JSONDictionary) : Dictionary :=
  jsonDict.Words.foldl (fun wordMap word => wordMap.insert word.EnglishWord word.Meanings)
    (makeDict jsonDict.TotalUniqueWords)

/-! ## Calls on a service -/

/-- A call of one of the four methods of `Service`. -/
inductive Call where
  | lookup (word : Str)
  | count
  | existsWord (word : Str)
  | suggest (pfx : Str) (limit : Int)

/-- What a call returns. -/
inductive Reply where
  | meanings (ms : List Str) (found : Bool)
  | number (n : Int)
  | flag (b : Bool)
  | words (ws : Option (List Str))

/-- One call on a service: the service as the method leaves it, and the reply.  No method
assigns to a field of its receiver, and `Suggest` appends to a slice of its own. -/
def Service.call (lower : Str → Str) (s : Service) : Call → Service × Reply
  | .lookup word => (s, .meanings (Lookup s word).1 (Lookup s word).2)
  | .count => (s, .number (Count s))
  | .existsWord word => (s, .flag (Exists s word))
  | .suggest pfx limit => (s, .words (Suggest lower s pfx limit))

/-- The service after a sequence of calls. -/
def Service.run (lower : Str → Str) (s : Service) : List Call → Service
  | [] => s
  | c :: cs => Service.run lower (s.call lower c).1 cs

/-! ## Notions of the specification -/

/-- The spec's case-consistency: on the keys, lower-casing keeps the byte-wise order. -/
def CaseConsistent (lower : Str → Str) (d : Dictionary) : Prop :=
  ∀ a ∈ rangeKeys d, ∀ b ∈ rangeKeys d, strLE a b → strLE (lower a) (lower b)

/-- The spec's whitespace: the ASCII bytes Go's `strings.TrimSpace` removes. -/
def isSpaceByte (c : Nat) : Bool := decide (c = 32) || (decide (9 ≤ c) && decide (c ≤ 13))

/-- The spec's "empty after trimming whitespace": every byte is whitespace. -/
def blankAfterTrim (pfx : Str) : Bool := pfx.all isSpaceByte

/-! ## Concrete dictionaries -/

/-- An all-lower-case dictionary: app, apple, bar. -/
def lowercaseDict : Dictionary :=
  ((makeDict 0).insert (ascii "bar") [ascii "a rod"]).insert (ascii "app")
    [ascii "short for application"] |>.insert (ascii "apple") [ascii "a fruit"]

/-- A mixed-case dictionary: Banana, apple. -/
def mixedDict : Dictionary :=
  ((makeDict 0).insert (ascii "apple") [ascii "a fruit"]).insert (ascii "Banana")
    [ascii "a fruit"]

/-- The dictionary of the worked scenario: apple, app, Application. -/
def scenarioDict : Dictionary :=
  ((makeDict 0).insert (ascii "apple") [ascii "a fruit"]).insert (ascii "app")
    [ascii "short for application"] |>.insert (ascii "Application") [ascii "a program"]

/-- A dictionary with one key that starts with a blank. -/
def blankDict : Dictionary := (makeDict 0).insert (ascii " a") [ascii "indefinite article"]

/-- A record with a repeated word and a wrong word count. -/
def repeatedJSON : JSONDictionary :=
  { TotalUniqueWords := 7,
    Words := [⟨ascii "a", [ascii "first"]⟩, ⟨ascii "b", []⟩, ⟨ascii "a", [ascii "last"]⟩] }

/-! ## The byte-wise order -/

theorem strLT_irrefl (a : Str) : strLT a a = false := by
  induction a with
  | nil => rfl
  | cons x xs ih => simp [strLT, ih]

theorem strLT_trans : ∀ a b c : Str, strLT a b = true → strLT b c = true → strLT a c = true
  | _, [], _, h, _ => by cases ‹Str› <;> simp [strLT] at h
  | _, _ :: _, [], _, h => by simp [strLT] at h
  | [], _ :: _, _ :: _, _, _ => by simp [strLT]
  | x :: xs, y :: ys, z :: zs, h₁, h₂ => by
    simp only [strLT, Bool.or_eq_true, Bool.and_eq_true, decide_eq_true_eq] at h₁ h₂ ⊢
    rcases h₁ with h₁ | ⟨rfl, h₁⟩
    · rcases h₂ with h₂ | ⟨rfl, _⟩
      · exact Or.inl (lt_trans h₁ h₂)
      · exact Or.inl h₁
    · rcases h₂ with h₂ | ⟨rfl, h₂⟩
      · exact Or.inl h₂
      · exact Or.inr ⟨rfl, strLT_trans xs ys zs h₁ h₂⟩

theorem strLT_trichotomy : ∀ a b : Str, strLT a b = true ∨ a = b ∨ strLT b a = true
  | [], [] => Or.inr (Or.inl rfl)
  | [], _ :: _ => Or.inl rfl
  | _ :: _, [] => Or.inr (Or.inr rfl)
  | x :: xs, y :: ys => by
    simp only [strLT, Bool.or_eq_true, Bool.and_eq_true, decide_eq_true_eq, List.cons.injEq]
    rcases Nat.lt_trichotomy x y with h | rfl | h
    · exact Or.inl (Or.inl h)
    · rcases strLT_trichotomy xs ys with h | rfl | h
      · exact Or.inl (Or.inr ⟨rfl, h⟩)
      · exact Or.inr (Or.inl ⟨rfl, rfl⟩)
      · exact Or.inr (Or.inr (Or.inr ⟨rfl, h⟩))
    · exact Or.inr (Or.inr (Or.inl h))

theorem strLT_asymm (a b : Str) (h : strLT a b = true) : strLT b a = false := by
  cases hba : strLT b a with
  | false => rfl
  | true =>
    have := strLT_trans a b a h hba
    rw [strLT_irrefl] at this
    exact absurd this (by decide)

theorem strLE_refl (a : Str) : strLE a a := strLT_irrefl a

theorem strLE_of_strLT {a b : Str} (h : strLT a b = true) : strLE a b := strLT_asymm a b h

theorem strLE_total (a b : Str) : strLE a b ∨ strLE b a := by
  rcases strLT_trichotomy a b with h | rfl | h
  · exact Or.inl (strLE_of_strLT h)
  · exact Or.inl (strLE_refl a)
  · exact Or.inr (strLE_of_strLT h)

theorem strLE_antisymm {a b : Str} (h₁ : strLE a b) (h₂ : strLE b a) : a = b := by
  unfold strLE at h₁ h₂
  rcases strLT_trichotomy a b with h | h | h
  · rw [h₂] at h; exact absurd h (by decide)
  · exact h
  · rw [h₁] at h; exact absurd h (by decide)

theorem strLE_trans {a b c : Str} (h₁ : strLE a b) (h₂ : strLE b c) : strLE a c := by
  unfold strLE at *
  cases hca : strLT c a with
  | false => rfl
  | true =>
    rcases strLT_trichotomy a b with h | rfl | h
    · rw [strLT_trans c a b hca h] at h₂; exact absurd h₂ (by decide)
    · rw [hca] at h₂; exact absurd h₂ (by decide)
    · rw [h₁] at h; exact absurd h (by decide)

theorem strLT_of_strLE_of_ne {a b : Str} (h : strLE a b) (hne : a ≠ b) : strLT a b = true := by
  rcases strLT_trichotomy a b with h' | h' | h'
  · exact h'
  · exact absurd h' hne
  · unfold strLE at h; rw [h] at h'; exact absurd h' (by decide)

/-- A string that has the prefix is not below it. -/
theorem strLE_of_HasPrefix : ∀ s q : Str, HasPrefix s q = true → strLE q s
  | _, [], _ => by cases ‹Str› <;> rfl
  | [], _ :: _, h => by simp [HasPrefix] at h
  | x :: xs, y :: ys, h => by
    simp only [HasPrefix, List.isPrefixOf, Bool.and_eq_true, beq_iff_eq] at h
    obtain ⟨rfl, h⟩ := h
    have ih := strLE_of_HasPrefix xs ys h
    unfold strLE at ih ⊢
    simp [strLT, ih]

/-- Between the prefix and a string that has the prefix, every string has the prefix. -/
theorem HasPrefix_of_between : ∀ q x y : Str, strLE q x → strLE x y →
    HasPrefix y q = true → HasPrefix x q = true
  | [], _, _, _, _, _ => by simp [HasPrefix]
  | _ :: _, _, [], _, _, h => by simp [HasPrefix] at h
  | _ :: _, [], _ :: _, h, _, _ => by simp [strLE, strLT] at h
  | a :: q, b :: x, c :: y, h₁, h₂, h₃ => by
    simp only [HasPrefix, List.isPrefixOf, Bool.and_eq_true, beq_iff_eq] at h₃ ⊢
    obtain ⟨rfl, h₃⟩ := h₃
    simp only [strLE, strLT, Bool.or_eq_false_iff, Bool.and_eq_false_iff,
      decide_eq_false_iff_not, not_lt] at h₁ h₂
    have hab : a = b := le_antisymm h₁.1 h₂.1
    subst hab
    refine ⟨rfl, HasPrefix_of_between q x y ?_ ?_ h₃⟩
    · rcases h₁.2 with h | h
      · exact absurd rfl h
      · exact h
    · rcases h₂.2 with h | h
      · exact absurd rfl h
      · exact h

/-! ## Sorting -/

theorem sortStrings_perm (ws : List Str) : (sortStrings ws).Perm ws :=
  List.perm_insertionSort strLE ws

theorem sortStrings_sorted (ws : List Str) : (sortStrings ws).Sorted strLE := by
  haveI : IsTotal Str strLE := ⟨strLE_total⟩
  haveI : IsTrans Str strLE := ⟨fun _ _ _ => strLE_trans⟩
  exact List.sorted_insertionSort strLE ws

/-- The order leaves no choice to the sorting routine: an ascending rearrangement of the
words is the list `sortStrings` returns. -/
theorem sortStrings_unique {ws out : List Str} (hp : out.Perm ws) (hs : out.Sorted strLE) :
    out = sortStrings ws := by
  haveI : IsAntisymm Str strLE := ⟨fun _ _ => strLE_antisymm⟩
  exact List.eq_of_perm_of_sorted (hp.trans (sortStrings_perm ws).symm) hs
    (sortStrings_sorted ws)

theorem sorted_strLT_of_nodup {ws : List Str} (hs : ws.Sorted strLE) (hn : ws.Nodup) :
    ws.Sorted (fun a b => strLT a b = true) := by
  have h := List.Pairwise.and hs hn
  exact h.imp (fun ⟨hle, hne⟩ => strLT_of_strLE_of_ne hle hne)

theorem rangeKeys_nodup (d : Dictionary) : (rangeKeys d).Nodup := d.keys_nodup

theorem sortedWords_perm (d : Dictionary) : (NewService d).sortedWords.Perm (rangeKeys d) :=
  sortStrings_perm _

theorem sortedWords_sorted (d : Dictionary) : (NewService d).sortedWords.Sorted strLE :=
  sortStrings_sorted _

theorem sortedWords_nodup (d : Dictionary) : (NewService d).sortedWords.Nodup :=
  (sortedWords_perm d).nodup_iff.mpr (rangeKeys_nodup d)

theorem sortedWords_strict (d : Dictionary) :
    (NewService d).sortedWords.Sorted (fun a b => strLT a b = true) :=
  sorted_strLT_of_nodup (sortedWords_sorted d) (sortedWords_nodup d)

theorem mem_sortedWords (d : Dictionary) (w : Str) :
    w ∈ (NewService d).sortedWords ↔ w ∈ rangeKeys d :=
  (sortedWords_perm d).mem_iff

/-! ## Binary search -/

/-- The loop of `sort.Search` ends within `j - i` rounds, between `i` and `j`. -/
theorem searchLoop_total (f : Nat → Bool) : ∀ fuel i j : Nat, i ≤ j → j - i ≤ fuel →
    ∃ r, searchLoop f fuel i j = some r ∧ i ≤ r ∧ r ≤ j
  | 0, i, j, hij, hf => by
    have : ¬ i < j := by omega
    exact ⟨i, by simp [searchLoop, this], le_refl i, hij⟩
  | fuel + 1, i, j, hij, hf => by
    unfold searchLoop
    by_cases hlt : i < j
    · simp only [hlt, if_true]
      by_cases hfh : f ((i + j) / 2) = true
      · obtain ⟨r, hr, h1, h2⟩ := searchLoop_total f fuel i ((i + j) / 2) (by omega) (by omega)
        exact ⟨r, by simp [hfh, hr], h1, by omega⟩
      · obtain ⟨r, hr, h1, h2⟩ :=
          searchLoop_total f fuel ((i + j) / 2 + 1) j (by omega) (by omega)
        exact ⟨r, by simp [hfh, hr], by omega, h2⟩
    · exact ⟨i, by simp [hlt], le_refl i, hij⟩

/-- `sort.Search` always returns, with an index between `0` and `n`. -/
theorem Search_total (n : Nat) (f : Nat → Bool) : ∃ r, Search n f = some r ∧ r ≤ n := by
  obtain ⟨r, hr, _, h⟩ := searchLoop_total f n 0 n (Nat.zero_le n) (by omega)
  exact ⟨r, hr, h⟩

theorem Search_isSome (n : Nat) (f : Nat → Bool) : (Search n f).isSome = true := by
  obtain ⟨r, hr, _⟩ := Search_total n f
  simp [hr]

/-- The loop of `sort.Search` reads `f` between `i` and `j` only. -/
theorem searchLoop_congr (f g : Nat → Bool) : ∀ fuel i j : Nat,
    (∀ k, i ≤ k → k < j → f k = g k) → searchLoop f fuel i j = searchLoop g fuel i j
  | 0, i, j, _ => by simp [searchLoop]
  | fuel + 1, i, j, h => by
    unfold searchLoop
    by_cases hlt : i < j
    · simp only [hlt, if_true]
      rw [h ((i + j) / 2) (by omega) (by omega)]
      rw [searchLoop_congr f g fuel ((i + j) / 2 + 1) j (fun k h1 h2 => h k (by omega) h2),
        searchLoop_congr f g fuel i ((i + j) / 2) (fun k h1 h2 => h k h1 (by omega))]
    · simp [hlt]

/-- The search over a slice never indexes past its end: the value the model gives to an
index out of range does not reach the result. -/
theorem Search_getD_irrelevant (ws : List Str) (g : Str → Bool) (d₁ d₂ : Str) :
    Search ws.length (fun i => g (ws.getD i d₁)) = Search ws.length (fun i => g (ws.getD i d₂)) := by
  refine searchLoop_congr _ _ ws.length 0 ws.length (fun k _ hk => ?_)
  simp only [List.getD_eq_getElem _ _ hk]

/-- On a predicate that is monotone below `n`, the loop keeps what is false before `i`
and true from `j` on, and ends where the predicate turns true. -/
theorem searchLoop_mono (f : Nat → Bool) (n : Nat)
    (hmono : ∀ a b, a ≤ b → b < n → f a = true → f b = true) :
    ∀ fuel i j : Nat, i ≤ j → j ≤ n → j - i ≤ fuel →
    (∀ k, k < i → f k = false) → (∀ k, j ≤ k → k < n → f k = true) →
    ∃ r, searchLoop f fuel i j = some r ∧ r ≤ n ∧
      (∀ k, k < r → f k = false) ∧ (∀ k, r ≤ k → k < n → f k = true)
  | 0, i, j, hij, hjn, hf, hlo, hhi => by
    have hnot : ¬ i < j := by omega
    have : i = j := by omega
    subst this
    exact ⟨i, by simp [searchLoop], hjn, hlo, hhi⟩
  | fuel + 1, i, j, hij, hjn, hf, hlo, hhi => by
    unfold searchLoop
    by_cases hlt : i < j
    · simp only [hlt, if_true]
      by_cases hfh : f ((i + j) / 2) = true
      · simp only [hfh, Bool.not_true, Bool.false_eq_true, if_false]
        refine searchLoop_mono f n hmono fuel i ((i + j) / 2) (by omega) (by omega) (by omega)
          hlo (fun k hk hkn => hmono _ k hk hkn hfh)
      · simp only [hfh, Bool.not_false, if_true]
        refine searchLoop_mono f n hmono fuel ((i + j) / 2 + 1) j (by omega) hjn (by omega)
          (fun k hk => ?_) hhi
        cases hfk : f k with
        | false => rfl
        | true => exact absurd (hmono k _ (by omega) (by omega) hfk) hfh
    · have : i = j := by omega
      subst this
      exact ⟨i, by simp, hjn, hlo, hhi⟩

theorem Search_mono (f : Nat → Bool) (n : Nat)
    (hmono : ∀ a b, a ≤ b → b < n → f a = true → f b = true) :
    ∃ r, Search n f = some r ∧ r ≤ n ∧
      (∀ k, k < r → f k = false) ∧ (∀ k, r ≤ k → k < n → f k = true) :=
  searchLoop_mono f n hmono n 0 n (Nat.zero_le n) (le_refl n) (by omega)
    (fun k hk => absurd hk (Nat.not_lt_zero k)) (fun k h1 h2 => absurd h2 (by omega))

/-! ## The suggestion loop -/

theorem clampLimit_pos (limit : Int) : 1 ≤ clampLimit limit := by
  simp only [clampLimit]
  split_ifs <;> omega

theorem clampLimit_le (limit : Int) : clampLimit limit ≤ 100 := by
  simp only [clampLimit]
  split_ifs <;> omega

/-- The loop appends to `suggestions` the leading run of matching words, cut where the
slice reaches `limit`. -/
theorem suggestLoop_eq (lower : Str → Str) (pfx : Str) (limit : Int) :
    ∀ (ws suggestions : List Str), suggestLoop lower pfx limit ws suggestions =
      suggestions ++ (ws.takeWhile (fun w => HasPrefix (lower w) pfx)).take
        (limit.toNat - suggestions.length)
  | [], suggestions => by simp [suggestLoop]
  | word :: rest, suggestions => by
    unfold suggestLoop
    by_cases hlen : (suggestions.length : Int) < limit
    · have hpos : limit.toNat - suggestions.length =
          (limit.toNat - (suggestions.length + 1)) + 1 := by omega
      by_cases hp : HasPrefix (lower word) pfx = true
      · rw [if_pos hlen, if_pos hp, suggestLoop_eq lower pfx limit rest, hpos]
        simp [List.takeWhile_cons, hp]
      · rw [if_pos hlen, if_neg hp]
        simp [List.takeWhile_cons, hp]
    · have hzero : limit.toNat - suggestions.length = 0 := by omega
      rw [if_neg hlen, hzero]
      simp

/-- The shape of every answer of `Suggest` to a prefix that is non-empty once lower-cased:
the search returns some index, the answer is the capped run of matches from there. -/
theorem Suggest_eq (lower : Str → Str) (s : Service) (pfx : Str) (limit : Int)
    (hne : lower pfx ≠ []) :
    ∃ idx, Search s.sortedWords.length
        (fun i => strGE (lower (s.sortedWords.getD i [])) (lower pfx)) = some idx ∧
      idx ≤ s.sortedWords.length ∧
      Suggest lower s pfx limit = some
        (((s.sortedWords.drop idx).takeWhile (fun w => HasPrefix (lower w) (lower pfx))).take
          (clampLimit limit).toNat) := by
  obtain ⟨idx, hidx, hle⟩ := Search_total s.sortedWords.length
    (fun i => strGE (lower (s.sortedWords.getD i [])) (lower pfx))
  refine ⟨idx, hidx, hle, ?_⟩
  unfold Suggest
  simp only [hne, if_false, hidx, suggestLoop_eq]
  simp

/-! ## Completeness of the walk on case-consistent keys -/

/-- A dictionary whose keys are all in lower case is case-consistent. -/
theorem caseConsistent_of_lowercase (lower : Str → Str) (d : Dictionary)
    (h : ∀ k ∈ rangeKeys d, lower k = k) : CaseConsistent lower d := by
  intro a ha b hb hab
  rw [h a ha, h b hb]
  exact hab

/-- A walk that stops at the first failure collects every match when no match comes
after a failure. -/
theorem takeWhile_eq_filter_of_pairwise (P : Str → Bool) :
    ∀ B : List Str, B.Pairwise (fun x y => P y = true → P x = true) →
      B.takeWhile P = B.filter P
  | [], _ => rfl
  | x :: B, h => by
    rw [List.pairwise_cons] at h
    by_cases hx : P x = true
    · simp [List.takeWhile_cons, List.filter_cons, hx,
        takeWhile_eq_filter_of_pairwise P B h.2]
    · have hnone : B.filter P = [] := by
        rw [List.filter_eq_nil_iff]
        intro a ha hPa
        exact hx (h.1 a ha hPa)
      simp [List.takeWhile_cons, List.filter_cons, hx, hnone]

/-- On a sorted index whose order lower-casing keeps, the answer of `Suggest` is the
capped selection of all matching words of the index. -/
theorem Suggest_eq_filter_of_sorted (lower : Str → Str) (s : Service) (pfx : Str)
    (limit : Int) (hsorted : s.sortedWords.Sorted strLE)
    (hcons : ∀ a ∈ s.sortedWords, ∀ b ∈ s.sortedWords, strLE a b → strLE (lower a) (lower b))
    (hne : lower pfx ≠ []) :
    Suggest lower s pfx limit = some
      ((s.sortedWords.filter (fun w => HasPrefix (lower w) (lower pfx))).take
        (clampLimit limit).toNat) := by
  obtain ⟨dict, sw⟩ := s
  simp only at hsorted hcons
  have hmono : ∀ a b, a ≤ b → b < sw.length →
      strGE (lower (sw.getD a [])) (lower pfx) = true →
      strGE (lower (sw.getD b [])) (lower pfx) = true := by
    intro a b hab hb hfa
    have ha : a < sw.length := by omega
    rw [List.getD_eq_getElem _ _ ha] at hfa
    rw [List.getD_eq_getElem _ _ hb]
    have hle : strLE sw[a] sw[b] := by
      rcases Nat.lt_or_eq_of_le hab with hlt | heq
      · exact List.pairwise_iff_getElem.mp hsorted a b ha hb hlt
      · subst heq; exact strLE_refl _
    have hlow := hcons _ (List.getElem_mem ha) _ (List.getElem_mem hb) hle
    have hq : strLE (lower pfx) (lower sw[a]) := by simpa [strGE, strLE] using hfa
    have := strLE_trans hq hlow
    simpa [strGE, strLE] using this
  obtain ⟨idx, hidx, hle, hlo, hhi⟩ := Search_mono _ sw.length hmono
  obtain ⟨idx', hidx', _, hS⟩ := Suggest_eq lower ⟨dict, sw⟩ pfx limit hne
  simp only at hidx' hS
  have hsame : idx' = idx := Option.some.inj (hidx'.symm.trans hidx)
  subst hsame
  rw [hS]
  congr 2
  -- no word before the index matches
  have hbefore : (sw.take idx').filter (fun w => HasPrefix (lower w) (lower pfx)) = [] := by
    rw [List.filter_eq_nil_iff]
    intro w hw hP
    obtain ⟨k, hk, rfl⟩ := List.mem_take_iff_getElem.mp hw
    have hklen : k < sw.length := by omega
    have hfk := hlo k (by omega)
    rw [List.getD_eq_getElem _ _ hklen] at hfk
    have hq := strLE_of_HasPrefix _ _ hP
    simp [strGE, strLE] at hfk hq
    rw [hq] at hfk
    exact absurd hfk (by decide)
  -- from the index on, a word that fails is followed by failures only
  have hafter : (sw.drop idx').Pairwise (fun x y =>
      HasPrefix (lower y) (lower pfx) = true → HasPrefix (lower x) (lower pfx) = true) := by
    have hsub : (sw.drop idx').Pairwise strLE := hsorted.sublist (List.drop_sublist _ _)
    refine hsub.imp_of_mem ?_
    intro x y hx hy hxy hPy
    have hxs : x ∈ sw := List.mem_of_mem_drop hx
    have hys : y ∈ sw := List.mem_of_mem_drop hy
    obtain ⟨k, hk, rfl⟩ := List.mem_drop_iff_getElem.mp hx
    have hfk := hhi (idx' + k) (by omega) (by omega)
    rw [List.getD_eq_getElem _ _ (by omega)] at hfk
    have hq : strLE (lower pfx) (lower sw[idx' + k]) := by simpa [strGE, strLE] using hfk
    exact HasPrefix_of_between _ _ _ hq (hcons _ hxs _ hys hxy) hPy
  conv_rhs => rw [← List.take_append_drop idx' sw, List.filter_append, hbefore,
    List.nil_append]
  exact takeWhile_eq_filter_of_pairwise _ _ hafter

/-! ## Lookup and Count -/

/-- C3: `Lookup` on `NewService m` agrees with `m`.  A word that `m` maps to `ms` is found
with exactly `ms`; a word that is not a key of `m` is not found and comes with no
meanings.  The word is compared as it is given, nothing is normalised. -/
theorem Lookup_agrees (m : Dictionary) (w : Str) :
    (∀ ms, (⟨w, ms⟩ : Sigma fun _ : Str => List Str) ∈ m.entries →
        Lookup (NewService m) w = (ms, true)) ∧
    (w ∉ rangeKeys m → Lookup (NewService m) w = ([], false)) := by
  constructor
  · intro ms hmem
    have h : m.lookup w = some ms := AList.mem_lookup_iff.mpr hmem
    simp [Lookup, NewService, h]
  · intro hw
    have h : m.lookup w = none := AList.lookup_eq_none.mpr hw
    simp [Lookup, NewService, h]

/-- C8: `Count` on `NewService m` is the number of distinct keys of `m`, is not negative,
and is the length of the sorted index. -/
theorem Count_eq_distinct_keys (m : Dictionary) :
    Count (NewService m) = ((rangeKeys m).toFinset.card : Int) ∧
    0 ≤ Count (NewService m) ∧
    Count (NewService m) = ((NewService m).sortedWords.length : Int) := by
  have hlen : m.entries.length = (rangeKeys m).length := by
    simp [rangeKeys, AList.keys, List.keys]
  refine ⟨?_, ?_, ?_⟩
  · rw [List.toFinset_card_of_nodup (rangeKeys_nodup m)]
    simp [Count, NewService, hlen]
  · simp [Count]
  · rw [(sortedWords_perm m).length_eq]
    simp [Count, NewService, hlen]

/-! ## Suggest -/

/-- C4: `Suggest` returns, and returns at most `L` words, where `L` is 20 for a limit that
is zero or negative, 100 for a limit above 100, and the limit itself otherwise. -/
theorem Suggest_length_le (lower : Str → Str) (s : Service) (pfx : Str) (limit : Int) :
    ∃ r, Suggest lower s pfx limit = some r ∧
      (r.length : Int) ≤ (if limit ≤ 0 then 20 else if limit > 100 then 100 else limit) := by
  have hL : clampLimit limit =
      (if limit ≤ 0 then 20 else if limit > 100 then 100 else limit) := by
    simp only [clampLimit]
    split_ifs <;> omega
  have hpos := clampLimit_pos limit
  by_cases hne : lower pfx = []
  · refine ⟨[], by simp [Suggest, hne], ?_⟩
    rw [← hL]
    simp only [List.length_nil, Nat.cast_zero]
    omega
  · obtain ⟨idx, _, _, hS⟩ := Suggest_eq lower s pfx limit hne
    refine ⟨_, hS, ?_⟩
    rw [← hL, List.length_take]
    omega

/-- C2: on every dictionary, mixed case included, `Suggest` returns a strictly ascending,
duplicate-free subsequence of the sorted keys; every returned word is a key of the
dictionary as stored, and its lower-cased form has the lower-cased prefix as a prefix. -/
theorem Suggest_sound (lower : Str → Str) (d : Dictionary) (pfx : Str) (limit : Int) :
    ∃ r, Suggest lower (NewService d) pfx limit = some r ∧
      r.Sorted (fun a b => strLT a b = true) ∧
      r.Nodup ∧
      r.Sublist (NewService d).sortedWords ∧
      (∀ w ∈ r, w ∈ rangeKeys d) ∧
      (∀ w ∈ r, HasPrefix (lower w) (lower pfx) = true) := by
  by_cases hne : lower pfx = []
  · exact ⟨[], by simp [Suggest, hne], List.sorted_nil, List.nodup_nil, List.nil_sublist _,
      by simp, by simp⟩
  · obtain ⟨idx, _, _, hS⟩ := Suggest_eq lower (NewService d) pfx limit hne
    have hsub : List.Sublist
        ((((NewService d).sortedWords.drop idx).takeWhile
          (fun w => HasPrefix (lower w) (lower pfx))).take (clampLimit limit).toNat)
        (NewService d).sortedWords :=
      ((List.take_sublist _ _).trans (List.takeWhile_sublist _)).trans (List.drop_sublist _ _)
    refine ⟨_, hS, (sortedWords_strict d).sublist hsub, (sortedWords_nodup d).sublist hsub,
      hsub, fun w hw => (mem_sortedWords d w).mp (hsub.subset hw), fun w hw => ?_⟩
    have hrun : w ∈ ((NewService d).sortedWords.drop idx).takeWhile
        (fun w => HasPrefix (lower w) (lower pfx)) := List.mem_of_mem_take hw
    have hp := List.mem_takeWhile_imp hrun
    exact hp

theorem nodup_of_strict {ms : List Str} (h : ms.Sorted (fun a b => strLT a b = true)) :
    ms.Nodup := by
  refine List.Pairwise.imp ?_ h
  intro a b hab heq
  subst heq
  rw [strLT_irrefl] at hab
  exact absurd hab (by decide)

/-- C1: on a dictionary with case-consistent keys, for a prefix that is non-empty once
lower-cased and for every limit, `Suggest` returns exactly the first `min L m` words of
`ms`, the strictly ascending list of all keys whose lower-cased form has the lower-cased
prefix as a prefix; `m` is the length of `ms`, and `L` is 20 for a limit that is zero or
negative, 100 for a limit above 100, and the limit itself otherwise. -/
theorem Suggest_complete (lower : Str → Str) (d : Dictionary) (pfx : Str) (limit : Int)
    (ms : List Str) (hcons : CaseConsistent lower d) (hne : lower pfx ≠ [])
    (hasc : ms.Sorted (fun a b => strLT a b = true))
    (hmem : ∀ k, k ∈ ms ↔ k ∈ rangeKeys d ∧ HasPrefix (lower k) (lower pfx) = true) :
    Suggest lower (NewService d) pfx limit = some (ms.take
      (min (if limit ≤ 0 then 20 else if limit > 100 then 100 else limit).toNat
        ms.length)) := by
  have hL : clampLimit limit =
      (if limit ≤ 0 then 20 else if limit > 100 then 100 else limit) := by
    simp only [clampLimit]
    split_ifs <;> omega
  have hS := Suggest_eq_filter_of_sorted lower (NewService d) pfx limit (sortedWords_sorted d)
    (fun a ha b hb => hcons a ((mem_sortedWords d a).mp ha) b ((mem_sortedWords d b).mp hb))
    hne
  have hms : ms =
      (NewService d).sortedWords.filter (fun w => HasPrefix (lower w) (lower pfx)) := by
    have hnd := nodup_of_strict hasc
    have hnd2 : ((NewService d).sortedWords.filter
        (fun w => HasPrefix (lower w) (lower pfx))).Nodup :=
      (sortedWords_nodup d).sublist (List.filter_sublist _)
    have hperm : ms.Perm ((NewService d).sortedWords.filter
        (fun w => HasPrefix (lower w) (lower pfx))) := by
      rw [List.perm_ext_iff_of_nodup hnd hnd2]
      intro k
      rw [hmem k, List.mem_filter, mem_sortedWords]
    haveI : IsAntisymm Str strLE := ⟨fun _ _ => strLE_antisymm⟩
    exact List.eq_of_perm_of_sorted hperm (hasc.imp strLE_of_strLT)
      ((sortedWords_sorted d).sublist (List.filter_sublist _))
  rw [hS, ← hms, hL]
  congr 1
  rw [List.take_eq_take]
  omega

/-- C1, witness: the all-lower-case dictionary app, apple, bar and the prefix app. -/
theorem Suggest_complete_witness :
    CaseConsistent ToLower lowercaseDict ∧ ToLower (ascii "app") ≠ [] ∧
    Suggest ToLower (NewService lowercaseDict) (ascii "app") 1 = some [ascii "app"] ∧
    Suggest ToLower (NewService lowercaseDict) (ascii "app") 0
      = some [ascii "app", ascii "apple"] := by
  have hcons : CaseConsistent ToLower lowercaseDict :=
    caseConsistent_of_lowercase ToLower lowercaseDict (by decide)
  have hne : ToLower (ascii "app") ≠ [] := by decide
  have hasc : [ascii "app", ascii "apple"].Sorted (fun a b => strLT a b = true) := by
    decide
  have hmem : ∀ k, k ∈ [ascii "app", ascii "apple"] ↔
      k ∈ rangeKeys lowercaseDict ∧ HasPrefix (ToLower k) (ToLower (ascii "app")) = true := by
    intro k
    have hkeys : rangeKeys lowercaseDict = [ascii "apple", ascii "app", ascii "bar"] := by
      decide
    rw [hkeys]
    constructor
    · intro hk
      simp only [List.mem_cons, List.mem_singleton, List.not_mem_nil, or_false] at hk
      rcases hk with rfl | rfl <;> decide
    · rintro ⟨hk, hp⟩
      simp only [List.mem_cons, List.mem_singleton, List.not_mem_nil, or_false] at hk
      rcases hk with rfl | rfl | rfl
      · decide
      · decide
      · exact absurd hp (by decide)
  exact ⟨hcons, hne,
    (Suggest_complete ToLower lowercaseDict (ascii "app") 1 _ hcons hne hasc hmem).trans
      (by decide),
    (Suggest_complete ToLower lowercaseDict (ascii "app") 0 _ hcons hne hasc hmem).trans
      (by decide)⟩

/-- C5, the failing input: on the dictionary Banana, apple the prefix app has the match
apple, the cap of 10 is not reached, and `Suggest` returns nothing. -/
theorem Suggest_misses_match :
    ascii "apple" ∈ rangeKeys mixedDict ∧
    HasPrefix (ToLower (ascii "apple")) (ToLower (ascii "app")) = true ∧
    (NewService mixedDict).sortedWords = [ascii "Banana", ascii "apple"] ∧
    Suggest ToLower (NewService mixedDict) (ascii "app") 10 = some [] := by
  decide

/-- C7, counterexample: the prefix of one blank is empty after trimming, the dictionary
has the key " a", and `Suggest` returns that key instead of nothing. -/
theorem Suggest_blank_not_empty :
    blankAfterTrim (ascii " ") = true ∧
    Suggest ToLower (NewService blankDict) (ascii " ") 10 = some [ascii " a"] := by
  decide

/-- C7, amended: `Suggest` returns the empty sequence whenever the lower-cased prefix is
the empty string, on every dictionary and for every limit. -/
theorem Suggest_empty_prefix (lower : Str → Str) (s : Service) (pfx : Str) (limit : Int)
    (h : lower pfx = []) : Suggest lower s pfx limit = some [] := by
  unfold Suggest
  simp [h]

/-- C7, witness: the empty prefix on a populated dictionary. -/
theorem Suggest_empty_prefix_witness :
    ToLower [] = [] ∧ Suggest ToLower (NewService scenarioDict) [] 10 = some [] :=
  ⟨rfl, Suggest_empty_prefix ToLower (NewService scenarioDict) [] 10 rfl⟩

/-- C6, counterexample: on the scenario dictionary `Suggest("app", 10)` does not return
app, Application, apple in that order. -/
theorem Suggest_scenario_not_lowercase_order :
    Suggest ToLower (NewService scenarioDict) (ascii "app") 10
      ≠ some [ascii "app", ascii "Application", ascii "apple"] := by
  decide

/-- C6, amended: on the scenario dictionary `Suggest("app", 10)` returns the three words
in byte-wise order, the capitalised word first: Application, app, apple. -/
theorem Suggest_scenario :
    Suggest ToLower (NewService scenarioDict) (ascii "app") 10
      = some [ascii "Application", ascii "app", ascii "apple"] := by
  decide

/-! ## The sorted index -/

theorem Service.run_eq (lower : Str → Str) (s : Service) : ∀ calls : List Call,
    Service.run lower s calls = s
  | [] => rfl
  | c :: cs => by
    have hcall : (s.call lower c).1 = s := by cases c <;> rfl
    rw [Service.run, hcall, Service.run_eq lower s cs]

/-- C9: the sorted index built by `NewService m` is a permutation of the keys of `m` (as
long as the key set, every key once, nothing else), strictly ascending byte-wise; sorting
the keys in any other iteration order gives the same index; and no sequence of `Lookup`,
`Count`, `Exists` and `Suggest` calls changes `dict` or `sortedWords`. -/
theorem sortedWords_invariant (lower : Str → Str) (m : Dictionary) :
    (NewService m).sortedWords.Perm (rangeKeys m) ∧
    (NewService m).sortedWords.length = (rangeKeys m).toFinset.card ∧
    (NewService m).sortedWords.Nodup ∧
    (∀ w, w ∈ (NewService m).sortedWords ↔ w ∈ rangeKeys m) ∧
    (NewService m).sortedWords.Sorted (fun a b => strLT a b = true) ∧
    (∀ ks : List Str, ks.Perm (rangeKeys m) → sortStrings ks = (NewService m).sortedWords) ∧
    (∀ calls : List Call,
      (Service.run lower (NewService m) calls).dict = m ∧
      (Service.run lower (NewService m) calls).sortedWords = (NewService m).sortedWords) := by
  refine ⟨sortedWords_perm m, ?_, sortedWords_nodup m, mem_sortedWords m,
    sortedWords_strict m, ?_, ?_⟩
  · rw [(sortedWords_perm m).length_eq, List.toFinset_card_of_nodup (rangeKeys_nodup m)]
  · intro ks hks
    exact (sortStrings_unique ((sortStrings_perm ks).trans hks) (sortStrings_sorted ks))
  · intro calls
    rw [Service.run_eq]
    exact ⟨rfl, rfl⟩

/-! ## The converter -/

theorem mem_foldl_insert (w : Str) : ∀ (ws : List Word) (m : Dictionary),
    w ∈ ws.foldl (fun wordMap word => wordMap.insert word.EnglishWord word.Meanings) m ↔
      w ∈ ws.map Word.EnglishWord ∨ w ∈ m
  | [], m => by simp
  | e :: ws, m => by
    rw [List.foldl_cons, mem_foldl_insert w ws, AList.mem_insert]
    simp only [List.map_cons, List.mem_cons]
    tauto

theorem lookup_foldl_insert_of_not_mem (w : Str) : ∀ (ws : List Word) (m : Dictionary),
    (∀ e ∈ ws, e.EnglishWord ≠ w) →
    (ws.foldl (fun wordMap word => wordMap.insert word.EnglishWord word.Meanings) m).lookup w =
      m.lookup w
  | [], _, _ => rfl
  | e :: ws, m, h => by
    rw [List.foldl_cons, lookup_foldl_insert_of_not_mem w ws _
      (fun e' he' => h e' (List.mem_cons_of_mem _ he'))]
    exact AList.lookup_insert_ne (fun heq => h e (List.mem_cons_self _ _) heq.symm)

/-- C10: the map returned by `convertToMap j` has as keys exactly the `EnglishWord` values
of `j.Words`; a word is mapped to the `Meanings` of the last entry that carries it; the
result does not depend on `j.TotalUniqueWords`; the size of the map is the number of
distinct `EnglishWord` values, which can differ from `TotalUniqueWords` and from the
number of entries. -/
theorem convertToMap_spec :
    (∀ j : JSONDictionary,
      (∀ w, w ∈ rangeKeys (convertToMap j) ↔ w ∈ j.Words.map Word.EnglishWord) ∧
      (∀ pre e post, j.Words = pre ++ e :: post →
        (∀ e' ∈ post, e'.EnglishWord ≠ e.EnglishWord) →
        (convertToMap j).lookup e.EnglishWord = some e.Meanings) ∧
      (∀ t : Int, convertToMap { j with TotalUniqueWords := t } = convertToMap j) ∧
      (convertToMap j).entries.length = (j.Words.map Word.EnglishWord).toFinset.card) ∧
    ((convertToMap repeatedJSON).entries.length = 2 ∧
      repeatedJSON.TotalUniqueWords = 7 ∧ repeatedJSON.Words.length = 3 ∧
      (convertToMap repeatedJSON).lookup (ascii "a") = some [ascii "last"]) := by
  refine ⟨fun j => ?_, by decide⟩
  have hkeys : ∀ w, w ∈ rangeKeys (convertToMap j) ↔ w ∈ j.Words.map Word.EnglishWord := by
    intro w
    have h := mem_foldl_insert w j.Words (makeDict j.TotalUniqueWords)
    have hempty : w ∉ makeDict j.TotalUniqueWords := AList.not_mem_empty w
    simp only [hempty, or_false] at h
    exact h
  refine ⟨hkeys, ?_, fun t => rfl, ?_⟩
  · intro pre e post hw hlast
    unfold convertToMap
    rw [hw, List.foldl_append, List.foldl_cons,
      lookup_foldl_insert_of_not_mem e.EnglishWord post _ hlast]
    exact AList.lookup_insert _
  · have hlen : (convertToMap j).entries.length = (rangeKeys (convertToMap j)).length := by
      simp [rangeKeys, AList.keys, List.keys]
    rw [hlen, ← List.toFinset_card_of_nodup (rangeKeys_nodup _)]
    congr 1
    ext w
    simp only [List.mem_toFinset]
    exact hkeys w

end DictService
